import Mathlib

/-!
Verification of the geoparsing core of the geopack repository
(src/geo/parsers.py and its collaborators) against its natural-language
specification.  The Python classes are shallowly embedded: hit records
become a Lean structure, Python dicts become ordered association lists
with insertion-order preserving update, the Elasticsearch index becomes
an oracle function passed as a parameter, and scores (Python floats)
are modelled as rationals.
-/

namespace Geopack

/-- Values that can appear in a dehydrated output record
(src/geo/parsers.py, GeoParser.Meta.fields). -/
inductive Val where
  | nat : Nat → Val
  | q : ℚ → Val
  | str : String → Val
  | nats : List Nat → Val
  | strs : List String → Val
  | loc : ℚ → ℚ → Val
deriving DecidableEq

/-- The belongsto field of a hit record: absent (KeyError on access), a list
of ancestor ids as returned by the index, or — after `_filter_places` has
overwritten it in place — a list of resolved ancestor display names. -/
inductive BT where
  | absent
  | ids : List Nat → BT
  | names : List String → BT
deriving DecidableEq

/-- A hit record as produced by GeoParser.prepare: the `_source` fields of an
index hit plus `_id` and `_score` (always present on a prepared hit), plus the
fields merged in later (`place` from the query string, span/label fields from
the extractor entity).  A field that may be missing from the Python dict is an
Option; `hierarchy` is the nested ancestor-id-by-level structure (a list of
dicts mapping "<level>_id" to an id). -/
structure Rec where
  _id : Nat
  _score : ℚ
  place : Option String := Option.none
  name : Option String := Option.none
  placetype : Option String := Option.none
  belongsto : BT := BT.absent
  location : Option (ℚ × ℚ) := Option.none
  region : Option String := Option.none
  iso_country : Option String := Option.none
  country : Option String := Option.none
  area : Option ℚ := Option.none
  area_square_m : Option ℚ := Option.none
  geomhash : Option String := Option.none
  timezone : Option String := Option.none
  population : Option Nat := Option.none
  geometry : Option String := Option.none
  text : Option String := Option.none
  start_char : Option Nat := Option.none
  end_char : Option Nat := Option.none
  label : Option String := Option.none
  hierarchy : List (List (String × Nat)) := []
deriving DecidableEq

/-- Ordered association-list lookup, the embedding of a Python dict read
`d[k]` / `d.get(k)`: the first entry with the given key. -/
def aget [DecidableEq K] (l : List (K × V)) (k : K) : Option V :=
  match l with
  | [] => Option.none
  | (k', v) :: t => if k' = k then some v else aget t k

/-- Ordered association-list update, the embedding of a Python dict write
`d[k] = v`: replaces the value in place if the key exists (keeping its
position, as Python dicts do) and appends otherwise. -/
def aset [DecidableEq K] (l : List (K × V)) (k : K) (v : V) : List (K × V) :=
  match l with
  | [] => [(k, v)]
  | (k', v') :: t => if k' = k then (k, v) :: t else (k', v') :: aset t k v

@[simp] theorem aget_nil [DecidableEq K] (k : K) : aget ([] : List (K × V)) k = Option.none := rfl

@[simp] theorem aget_cons [DecidableEq K] (k' : K) (v : V) (t : List (K × V)) (k : K) :
    aget ((k', v) :: t) k = if k' = k then some v else aget t k := rfl

@[simp] theorem aset_nil [DecidableEq K] (k : K) (v : V) :
    aset ([] : List (K × V)) k v = [(k, v)] := rfl

@[simp] theorem aset_cons [DecidableEq K] (k' : K) (v' : V) (t : List (K × V)) (k : K) (v : V) :
    aset ((k', v') :: t) k v = if k' = k then (k, v) :: t else (k', v') :: aset t k v := rfl

theorem aget_aset_self [DecidableEq K] (l : List (K × V)) (k : K) (v : V) :
    aget (aset l k v) k = some v := by
  induction l with
  | nil => simp [aset, aget]
  | cons hd t ih =>
    obtain ⟨k', v'⟩ := hd
    by_cases h : k' = k <;> simp [aset, aget, h, ih]

theorem aget_aset_ne [DecidableEq K] (l : List (K × V)) (k k₀ : K) (v : V) (h : k ≠ k₀) :
    aget (aset l k v) k₀ = aget l k₀ := by
  induction l with
  | nil => simp [aset, aget, h]
  | cons hd t ih =>
    obtain ⟨k', v'⟩ := hd
    by_cases hk : k' = k
    · subst hk
      simp [aset, aget, h]
    · simp [aset, aget, hk, ih]

theorem aset_keys_of_mem [DecidableEq K] (l : List (K × V)) (k : K) (v : V)
    (h : k ∈ l.map Prod.fst) : (aset l k v).map Prod.fst = l.map Prod.fst := by
  induction l with
  | nil => simp at h
  | cons hd t ih =>
    obtain ⟨k', v'⟩ := hd
    by_cases hk : k' = k
    · simp [aset, hk]
    · simp only [List.map_cons] at h
      rcases List.mem_cons.mp h with h | h
      · exact absurd h.symm hk
      · simp [aset, hk, ih h]

theorem aget_mem [DecidableEq K] {l : List (K × V)} {k : K} {v : V}
    (h : aget l k = some v) : (k, v) ∈ l := by
  induction l with
  | nil => simp [aget] at h
  | cons hd t ih =>
    obtain ⟨k', v'⟩ := hd
    by_cases hk : k' = k
    · subst hk
      simp [aget] at h
      simp [h]
    · simp [aget, hk] at h
      exact List.mem_cons_of_mem _ (ih h)

theorem aget_isSome_of_mem_keys [DecidableEq K] {l : List (K × V)} {k : K}
    (h : k ∈ l.map Prod.fst) : ∃ v, aget l k = some v := by
  induction l with
  | nil => simp at h
  | cons hd t ih =>
    obtain ⟨k', v'⟩ := hd
    by_cases hk : k' = k
    · exact ⟨v', by simp [aget, hk]⟩
    · simp only [List.map_cons] at h
      rcases List.mem_cons.mp h with h | h
      · exact absurd h.symm hk
      · simpa [aget, hk] using ih h

theorem mem_keys_of_aget_isSome [DecidableEq K] {l : List (K × V)} {k : K} {v : V}
    (h : aget l k = some v) : k ∈ l.map Prod.fst := by
  have := aget_mem h
  exact List.mem_map_of_mem Prod.fst this

/-! ## Result Formatter (GeoParser.Meta.fields and GeoParser.dehydrate) -/

/-- The field list of GeoParser.Meta.fields (src/geo/parsers.py lines 61-85),
verbatim and in order; the source lists the key location twice. -/
def metaFields : List String :=
  ["_id", "_score", "place", "name", "placetype", "belongsto", "location",
   "region", "iso_country", "country", "area", "area_square_m", "geomhash",
   "location", "timezone", "population", "geometry",
   "text", "start_char", "end_char", "label"]

/-- Dynamic field access rec[field] on a hit record, returning none on a
missing key (the KeyError case).  Only the names occurring in metaFields are
ever looked up by dehydrate; hierarchy and the lat/lon copies live in
dedicated components of Rec and are not among them. -/
def recGet (rec : Rec) : String → Option Val
  | "_id" => some (Val.nat rec._id)
  | "_score" => some (Val.q rec._score)
  | "place" => rec.place.map Val.str
  | "name" => rec.name.map Val.str
  | "placetype" => rec.placetype.map Val.str
  | "belongsto" =>
      match rec.belongsto with
      | BT.absent => Option.none
      | BT.ids l => some (Val.nats l)
      | BT.names l => some (Val.strs l)
  | "location" => rec.location.map (fun p => Val.loc p.1 p.2)
  | "region" => rec.region.map Val.str
  | "iso_country" => rec.iso_country.map Val.str
  | "country" => rec.country.map Val.str
  | "area" => rec.area.map Val.q
  | "area_square_m" => rec.area_square_m.map Val.q
  | "geomhash" => rec.geomhash.map Val.str
  | "timezone" => rec.timezone.map Val.str
  | "population" => rec.population.map Val.nat
  | "geometry" => rec.geometry.map Val.str
  | "text" => rec.text.map Val.str
  | "start_char" => rec.start_char.map Val.nat
  | "end_char" => rec.end_char.map Val.nat
  | "label" => rec.label.map Val.str
  | _ => Option.none

/-- GeoParser.dehydrate (src/geo/parsers.py lines 181-190): builds the output
record by assigning rec_[field] = rec[field] for every declared field, with
None (here: the inner Option.none) when the lookup raises KeyError. -/
def dehydrate (rec : Rec) : List (String × Option Val) :=
  metaFields.foldl (fun d f => aset d f (recGet rec f)) []

/-! ## Hierarchy Resolver (resolve_belongsto, get_hierarchy_items, get_region)

The Elasticsearch index queried for ancestor names is an external
collaborator; it is modelled as an oracle nameIdx : Nat → Option String
giving the name stored for an id (none when the id has no record or the
record has no usable name). -/

/-- GeoParser.resolve_belongsto (src/geo/parsers.py lines 358-377): resolves
the ids in rec's belongsto to (id, name) pairs, preserving order and skipping
ids the index cannot name.  An absent or empty belongsto yields [].  A
belongsto already overwritten with display names would be looked up as ids
and match nothing, hence also yields []. -/
def resolve_belongsto (nameIdx : Nat → Option String) (rec : Rec) : List (Nat × String) :=
  match rec.belongsto with
  | BT.ids l => l.filterMap (fun i => (nameIdx i).map (fun nm => (i, nm)))
  | _ => []

/-- GeoParser.get_hierarchy_items (src/geo/parsers.py lines 379-409): the
name of the ancestor at a hierarchy level: take the first hierarchy dict,
read its "<item_type>_id", first try the already-resolved belongs_to pairs,
then the index. -/
def get_hierarchy_items (nameIdx : Nat → Option String) (rec : Rec)
    (item_type : String) (belongs_to : List (Nat × String)) : Option String :=
  match rec.hierarchy.head? with
  | Option.none => Option.none
  | some hd =>
    match aget hd (item_type ++ "_id") with
    | Option.none => Option.none
    | some hid =>
      match aget belongs_to hid with
      | some nm => some nm
      | Option.none => nameIdx hid

/-- Python truthiness test `not name` for an optional string: true for None
and for the empty string. -/
def falsyStr : Option String → Bool
  | Option.none => true
  | some s => s = ""

/-- The placetype list of the first branch of get_region
(src/geo/parsers.py lines 418-429). -/
def lowLevelPlacetypes : List String :=
  ["county", "metro area", "locality", "macrohood", "neighbourhood",
   "microhood", "campus", "building", "address", "venue"]

/-- The placetype list of the second branch of get_region
(src/geo/parsers.py lines 436-440). -/
def countryLevelPlacetypes : List String := ["empire", "country", "macroregion"]

/-- GeoParser.get_region (src/geo/parsers.py lines 411-451).  For the low
level placetypes: the "county" ancestor, falling back to "region" when the
county lookup is falsy, returned as is (possibly None).  For the country
level placetypes the source calls get_hierarchy_items(rec, "country", ...)
but discards the returned value (line 442 binds it to nothing); control then
falls through to the "region" lookup shared with all remaining placetypes,
with rec["name"] as the fallback when that lookup returns None.  A missing
placetype key would raise KeyError in the source; it is modelled as the empty
string, which matches no placetype list. -/
def get_region (nameIdx : Nat → Option String) (rec : Rec)
    (belongs_to : List (Nat × String)) : Option String :=
  let pt := rec.placetype.getD ""
  if pt ∈ lowLevelPlacetypes then
    let name := get_hierarchy_items nameIdx rec "county" belongs_to
    if falsyStr name then get_hierarchy_items nameIdx rec "region" belongs_to
    else name
  else
    let _discarded : Option String :=
      if pt ∈ countryLevelPlacetypes then
        get_hierarchy_items nameIdx rec "country" belongs_to
      else Option.none
    let region := get_hierarchy_items nameIdx rec "region" belongs_to
    match region with
    | Option.none => rec.name
    | some r => some r

/-! ## Candidate Searcher (search_place, parse_place)

The query against the Place Index together with GeoParser.prepare is an
external round trip; idx models the prepared hit list
[self.prepare(rec) for rec in qs] for a query string, before the final
slice [:topn]. -/

/-- Python slice bound for the topn keyword: kwargs.get("topn", False)
defaults to False, and a slice [:False] is a slice [:0]. -/
def pysliceTopn : Option Nat → Nat
  | Option.none => 0
  | some n => n

/-- GeoParser.search_place (src/geo/parsers.py lines 124-153): the prepared
hit list truncated by the [:topn] slice. -/
def search_place (idx : String → List Rec) (place : String) (topn : Option Nat) : List Rec :=
  (idx place).take (pysliceTopn topn)

/-- GeoParser.parse_place (src/geo/parsers.py lines 192-204): first hit of
search_place with the query string recorded under place, dehydrated; the
IndexError on an empty hit list gives []. -/
def parse_place (sp : String → List Rec) (text : String) : List (List (String × Option Val)) :=
  match sp text with
  | [] => []
  | hit :: _ => [dehydrate {hit with place := some text}]

/-! ## Disambiguator (_filter_places, parse_places) -/

/-- The helper _get_tokens (src/geo/parsers.py lines 15-32) restricted to its
one call site, _get_tokens(rec, "belongsto", "name"): collect the belongsto
values and the name, skipping missing fields, and join with a comma.  At the
call site belongsto has just been overwritten with display names; on raw
ancestor ids the source's str.join would raise TypeError, so that branch is
unreachable there and mapped to []. -/
def _get_tokens (rec : Rec) : String :=
  String.intercalate ","
    ((match rec.belongsto with
      | BT.names l => l
      | _ => []) ++
     (match rec.name with
      | some n => [n]
      | Option.none => []))

/-- A similarity record {"id1": ..., "id2": ..., "similarity": ...} as
consumed by the boosting loop (src/geo/parsers.py lines 282-283). -/
structure SimRec where
  id1 : Nat
  id2 : Nat
  similarity : ℚ
deriving DecidableEq

/-- Ordered pairs of distinct positions of a list, each unordered pair once,
first component earlier in the list. -/
def allPairs : List α → List (α × α)
  | [] => []
  | x :: xs => xs.map (fun y => (x, y)) ++ allPairs xs

/-- Stable descending insertion by a rational key: an element is placed
before the first strictly smaller key, so equal keys keep their original
order, as Python's sorted(..., reverse=True) does. -/
def insDesc (f : α → ℚ) (x : α) : List α → List α
  | [] => [x]
  | y :: ys => if f y ≤ f x then x :: y :: ys else y :: insDesc f x ys

/-- Stable descending sort by a rational key (Python sorted with
reverse=True). -/
def sortDescBy (f : α → ℚ) : List α → List α
  | [] => []
  | x :: xs => insDesc f x (sortDescBy f xs)

/-- Splitting a token string back into its comma-separated tokens
(the delimiter _get_tokens joined with). -/
def splitCommaGo (cur : List Char) : List Char → List String
  | [] => [String.mk cur.reverse]
  | c :: rest =>
      if c = ',' then String.mk cur.reverse :: splitCommaGo [] rest
      else splitCommaGo (c :: cur) rest

/-- Comma-splitting of a whole string. -/
def splitComma (s : String) : List String := splitCommaGo [] s.data

/-- Modelled from the spec: Extractor.similarity is called by _filter_places
(src/geo/parsers.py line 279) but is defined nowhere in the sources.  Per the
spec (section 4.2, step 3b): pairwise lexical similarity across the context
token strings, a token-overlap similarity measure with a threshold (0.9 at
the call site) and a cap on the number of pairs (10 at the call site),
highest similarity first.  Token overlap is taken as the Jaccard ratio of the
comma-separated token sets. -/
def jaccard (a b : String) : ℚ :=
  let ta := (splitComma a).dedup
  let tb := (splitComma b).dedup
  let inter := (ta.filter (fun t => decide (t ∈ tb))).length
  let union := (ta ++ tb.filter (fun t => decide (t ∉ ta))).length
  if union = 0 then 0 else (inter : ℚ) / (union : ℚ)

/-- Modelled from the spec: the similarity list for a token mapping, see
jaccard.  Pairs meeting the threshold, sorted by descending similarity,
capped at the limit. -/
def similarity (toks : List (Nat × String)) (threshold : ℚ) (limit : Nat) : List SimRec :=
  ((sortDescBy (fun r => r.similarity)
      (((allPairs toks).map
          (fun p => SimRec.mk p.1.1 p.2.1 (jaccard p.1.2 p.2.2))).filter
        (fun r => decide (threshold ≤ r.similarity)))).take limit)

/-- Update of an existing key of a score dict, _scores[k] = f _scores[k]; a
missing key would raise KeyError in the source, but the boosting loop only
receives keys of the token mapping it was computed from (sim_mem_keys). -/
def amodify [DecidableEq K] (l : List (K × V)) (k : K) (f : V → V) : List (K × V) :=
  match l with
  | [] => []
  | (k', v) :: t => if k' = k then (k, f v) :: t else (k', v) :: amodify t k f

/-- The boosting loop of _filter_places (src/geo/parsers.py lines 279-283):
for each of the first two similarity records, multiply the score stored under
id1 — and only under id1 — by similarity * 10. -/
def boost_scores (scores : List (Nat × ℚ)) (toks : List (Nat × String)) : List (Nat × ℚ) :=
  ((similarity toks ((9 : ℚ)/10) 10).take 2).foldl
    (fun sc r => amodify sc r.id1 (fun v => v * (r.similarity * 10))) scores

/-- The containment set: union of all belongsto lists handed to
_filter_places (src/geo/parsers.py line 225). -/
def ids_belongsto (locs : List (Nat × List Nat)) : List Nat :=
  (locs.map Prod.snd).flatten

/-- Hit ids that are themselves an ancestor of some hit
(src/geo/parsers.py line 226). -/
def ids_hilevel (hits : List (Nat × Rec)) (locs : List (Nat × List Nat)) : List Nat :=
  (hits.map Prod.fst).filter (fun k => decide (k ∈ ids_belongsto locs))

/-- Containment filtering (src/geo/parsers.py lines 232-237): drop every
place string any of whose hit ids is in ids_hilevel. -/
def filtered_places (hits : List (Nat × Rec)) (locs : List (Nat × List Nat))
    (place_locs : List (String × List Nat)) : List (String × List Nat) :=
  place_locs.filter (fun pl => !(pl.2.any (fun i => decide (i ∈ ids_hilevel hits locs))))

/-- Overwriting a hit's belongsto in place with resolved display names
(src/geo/parsers.py line 255). -/
def bt_set (h : Rec) (l : List String) : Rec := {h with belongsto := BT.names l}

/-- The hits of one place string visited by the main loop of _filter_places
(src/geo/parsers.py lines 248-250): the entries of the current hits mapping,
in hits order, whose key is in the place string's hit id list. -/
def fp_scored (cur : List (Nat × Rec)) (pl : String × List Nat) : List (Nat × Rec) :=
  cur.filter (fun kv => decide (kv.1 ∈ pl.2))

/-- The visited entries with their belongsto overwritten in place by the
resolved ancestor display names (src/geo/parsers.py lines 252-255). -/
def fp_upd (nameIdx : Nat → Option String) (cur : List (Nat × Rec))
    (pl : String × List Nat) : List (Nat × Rec) :=
  (fp_scored cur pl).map (fun kv =>
    (kv.1, bt_set kv.2 ((resolve_belongsto nameIdx kv.2).map Prod.snd)))

/-- The hits mapping after the visits of one place string: every visited
entry's value replaced by its overwritten form (the in-place mutation the
caller and later iterations observe). -/
def fp_cur (nameIdx : Nat → Option String) (cur : List (Nat × Rec))
    (pl : String × List Nat) : List (Nat × Rec) :=
  (fp_upd nameIdx cur pl).foldl (fun c u => aset c u.1 u.2) cur

/-- The top sorted entry of the boosted score dict of one place string
(src/geo/parsers.py lines 257-290): scores and token strings are read off
the updated records, boosted, sorted descending, and the head taken; none is
the caught IndexError on an empty score list. -/
def fp_winner (nameIdx : Nat → Option String) (cur : List (Nat × Rec))
    (pl : String × List Nat) : Option (Nat × ℚ) :=
  (sortDescBy (fun x => x.2)
    (boost_scores ((fp_upd nameIdx cur pl).map (fun u => (u.1, u.2._score)))
      ((fp_upd nameIdx cur pl).map (fun u => (u.1, _get_tokens u.2))))).head?

/-- One iteration of the main loop of _filter_places
(src/geo/parsers.py lines 245-292) for one surviving place string, on the
accumulator (chosen winner keys so far, current hits mapping). -/
def fp_step (nameIdx : Nat → Option String) (acc : List Nat × List (Nat × Rec))
    (pl : String × List Nat) : List Nat × List (Nat × Rec) :=
  (match fp_winner nameIdx acc.2 pl with
   | Option.none => acc.1
   | some s => acc.1 ++ [s.1],
   fp_cur nameIdx acc.2 pl)

/-- The main loop of _filter_places over the surviving place strings. -/
def fp_fold (nameIdx : Nat → Option String) (acc : List Nat × List (Nat × Rec)) :
    List (String × List Nat) → List Nat × List (Nat × Rec)
  | [] => acc
  | pl :: rest => fp_fold nameIdx (fp_step nameIdx acc pl) rest

/-- GeoParser._filter_places (src/geo/parsers.py lines 206-294).  Returns the
result list and the final hits mapping; the source's result list holds
references into the hits dict, so its elements are the final (possibly
re-mutated) hit objects of the chosen keys.  The write-only places_tmp dict
of the source is dropped. -/
def _filter_places (nameIdx : Nat → Option String) (hits : List (Nat × Rec))
    (locs : List (Nat × List Nat)) (place_locs : List (String × List Nat)) :
    List Rec × List (Nat × Rec) :=
  let fp := fp_fold nameIdx ([], hits) (filtered_places hits locs place_locs)
  (fp.1.filterMap (fun k => aget fp.2 k), fp.2)

/-- The accumulation state of parse_places (src/geo/parsers.py lines 302-330):
hits keyed by id, the reduced belongsto view locs, and the place string to
hit ids mapping. -/
structure PPState where
  hits : List (Nat × Rec)
  locs : List (Nat × List Nat)
  place_locs : List (String × List Nat)

/-- The inner loop body of parse_places for the hits of one place string:
annotate the hit with its query string, key it by id (a repeated id is
overwritten in place), append the id to the place string's id list, and
record the belongsto ids when present and non-empty (a missing belongsto is
the caught KeyError; a names-valued belongsto would raise ValueError at
int() in the source and cannot reach this loop, and is skipped). -/
def pp_step (st : PPState) (place : String) (recs : List Rec) : PPState :=
  recs.foldl (fun st hit =>
    let hit' := {hit with place := some place}
    let hits := aset st.hits hit'._id hit'
    let place_locs :=
      match aget st.place_locs place with
      | some l => aset st.place_locs place (l ++ [hit'._id])
      | Option.none => aset st.place_locs place [hit'._id]
    let loc : List Nat :=
      match hit'.belongsto with
      | BT.ids l => l
      | _ => []
    let locs := if loc = [] then st.locs else aset st.locs hit'._id loc
    PPState.mk hits locs place_locs) st

/-- The accumulation loop of parse_places over all place strings. -/
def pp_collect (sp : String → List Rec) (places : List String) : PPState :=
  places.foldl (fun st p => pp_step st p (sp p)) (PPState.mk [] [] [])

/-- GeoParser.parse_places (src/geo/parsers.py lines 296-338): accumulate the
per-string search results; with exactly one hit in total return it
dehydrated directly, otherwise dehydrate the filtered hits. -/
def parse_places (sp : String → List Rec) (nameIdx : Nat → Option String)
    (places : List String) : List (List (String × Option Val)) :=
  match pp_collect sp places with
  | PPState.mk [single] _ _ => [dehydrate single.2]
  | st => ((_filter_places nameIdx st.hits st.locs st.place_locs).1).map dehydrate

/-! ## GeoParser.parse (the memoized text entry point) -/

/-- The record assembled for the result list, dehydrate({**found, **place}):
the merge of the found hit with the extractor entity is an external record
merge; it is abstracted as a parameter merge applied to the found hit and
the raw place string. -/
def emit (merge : Rec → String → Rec) (found : Option Rec) (p : String) :
    List (List (String × Option Val)) :=
  match found with
  | some f => [dehydrate (merge f p)]
  | Option.none => []

/-- The loop of GeoParser.parse (src/geo/parsers.py lines 105-122) with an
explicit memoization cache and a count of index queries issued: each place
string is cleaned (TextCleaner.cleanup_hard, an external collaborator,
abstracted as clean); a cached name — even one cached with an empty result —
is reused without a query, otherwise search_place(name, topn=1) is issued
once and its first hit (or the empty result) is cached. -/
def parse_go (idx : String → List Rec) (clean : String → String)
    (merge : Rec → String → Rec) :
    List String → List (String × Option Rec) →
    List (List (String × Option Val)) × List (String × Option Rec) × Nat
  | [], cache => ([], cache, 0)
  | p :: rest, cache =>
    let nm := clean p
    match aget cache nm with
    | some found =>
      let r := parse_go idx clean merge rest cache
      (emit merge found p ++ r.1, r.2.1, r.2.2)
    | Option.none =>
      let found := (search_place idx nm (some 1)).head?
      let r := parse_go idx clean merge rest (aset cache nm found)
      (emit merge found p ++ r.1, r.2.1, r.2.2 + 1)

/-- GeoParser.parse (src/geo/parsers.py lines 93-122), starting from the
empty request-scoped cache. -/
def parse (idx : String → List Rec) (clean : String → String)
    (merge : Rec → String → Rec) (places : List String) :
    List (List (String × Option Val)) × List (String × Option Rec) × Nat :=
  parse_go idx clean merge places []

/-! ## Helper lemmas -/

/-- Closed form of the dehydrated record: one entry per declared field in
declaration order, the duplicated location key collapsing onto its first
position. -/
theorem dehydrate_eq (rec : Rec) : dehydrate rec =
    [("_id", recGet rec "_id"), ("_score", recGet rec "_score"),
     ("place", recGet rec "place"), ("name", recGet rec "name"),
     ("placetype", recGet rec "placetype"), ("belongsto", recGet rec "belongsto"),
     ("location", recGet rec "location"), ("region", recGet rec "region"),
     ("iso_country", recGet rec "iso_country"), ("country", recGet rec "country"),
     ("area", recGet rec "area"), ("area_square_m", recGet rec "area_square_m"),
     ("geomhash", recGet rec "geomhash"), ("timezone", recGet rec "timezone"),
     ("population", recGet rec "population"), ("geometry", recGet rec "geometry"),
     ("text", recGet rec "text"), ("start_char", recGet rec "start_char"),
     ("end_char", recGet rec "end_char"), ("label", recGet rec "label")] := by
  simp [dehydrate, metaFields]

/-! ## Claim C5: region for country-level placetypes -/

/-- The name oracle of an index that resolves no id at all. -/
def idxNone : Nat → Option String := fun _ => Option.none

/-- A country-placetype hit named X whose hierarchy names a country-level
ancestor with id 1 and no other level. -/
def rec5 : Rec :=
  { _id := 1, _score := 0, placetype := some "country", name := some "X", hierarchy := [[("country_id", 1)]] }

/-- Claim C5 (code bug): for a hit of placetype country whose country-level
ancestor is resolvable (here to the name Atlantis via the supplied
belongs_to pairs), get_region is claimed to return that ancestor name.  The
source computes the country-level lookup at line 442 but discards the result
(the comment there announces downshifting empire to country), falls through
to the region lookup, and — the region level being unresolvable here — falls
back to the hit's own name X.  Evaluating the embedded code at this failing
input shows the divergence: the country ancestor resolves to Atlantis, yet
get_region returns X. -/
theorem c5_region_for_countries_bug :
    get_hierarchy_items idxNone rec5 "country" [(1, "Atlantis")] = some "Atlantis"
    ∧ get_region idxNone rec5 [(1, "Atlantis")] = some "X" := by
  constructor <;> rfl

/-! ## Claim C6: terminal fallback to the hit's own name -/

/-- Claim C6, counterexample: a hit of placetype locality with an empty
hierarchy (so no ancestor is resolvable at any level through any path) and
own name Y.  The claim says get_region returns the hit's own name for every
placetype; on the low-level placetype branch the source returns the (None)
lookup result directly at line 434, without the own-name fallback. -/
theorem c6_region_fallback_cex :
    get_region idxNone { _id := 1, _score := 0, placetype := some "locality", name := some "Y" } []
      = Option.none
    ∧ ({ _id := 1, _score := 0, placetype := some "locality", name := some "Y" } : Rec).name
      = some "Y" := by
  constructor <;> rfl

/-- Claim C6, amended: the own-name terminal fallback applies only to hits
whose placetype is outside the low-level list (county, metro area, locality,
macrohood, neighbourhood, microhood, campus, building, address, venue); for
those placetypes an unresolvable hierarchy yields None instead. -/
theorem c6_region_fallback_amended (nameIdx : Nat → Option String) (rec : Rec)
    (bt : List (Nat × String)) (pt : String) (hpt : rec.placetype = some pt)
    (hall : ∀ lvl, get_hierarchy_items nameIdx rec lvl bt = Option.none) :
    get_region nameIdx rec bt =
      if pt ∈ lowLevelPlacetypes then Option.none else rec.name := by
  by_cases hm : pt ∈ lowLevelPlacetypes <;>
    simp [get_region, hpt, hm, hall, falsyStr]

/-- Witness for c6_region_fallback_amended at a concrete input: placetype
region is outside the low-level list, nothing is resolvable, and get_region
returns the hit's own name Z. -/
theorem c6_region_fallback_amended_witness :
    get_region idxNone { _id := 1, _score := 0, placetype := some "region", name := some "Z" } []
      = some "Z" := by
  have h := c6_region_fallback_amended idxNone
      { _id := 1, _score := 0, placetype := some "region", name := some "Z" } []
      "region" rfl (fun _ => rfl)
  rw [if_neg (by decide)] at h
  exact h

/-! ## Claim C7: formatter totality over the declared fields -/

/-- A hit record that does carry hierarchy data. -/
def rec7 : Rec :=
  { _id := 3, _score := 5, name := some "H", hierarchy := [[("region_id", 5)]] }

/-- Claim C7, counterexample: the declared output fields
(GeoParser.Meta.fields) do not include hierarchy, so the dehydrated record of
a hit that does carry hierarchy data has no hierarchy key at all — neither a
value nor a null.  The outer Option.none here means the key is absent from
the output record, as opposed to some Option.none for a present null. -/
theorem c7_formatter_totality_cex :
    aget (dehydrate rec7) "hierarchy" = Option.none
    ∧ rec7.hierarchy = [[("region_id", 5)]] := by
  constructor <;> rfl

/-- Claim C7, amended: for every input record, every field declared in
GeoParser.Meta.fields — which lists _id, _score, place, name, placetype,
belongsto, location, region, iso_country, country, area, area_square_m,
geomhash, timezone, population, geometry, text, start_char, end_char and
label, but not hierarchy — is present as a key of the dehydrated record,
with a null value (the inner Option.none) exactly when the input lacks the
field. -/
theorem c7_formatter_totality_amended (rec : Rec) (f : String) (hf : f ∈ metaFields) :
    aget (dehydrate rec) f = some (recGet rec f) := by
  simp only [metaFields, List.mem_cons, List.not_mem_nil, or_false] at hf
  rcases hf with rfl|rfl|rfl|rfl|rfl|rfl|rfl|rfl|rfl|rfl|rfl|rfl|rfl|rfl|rfl|rfl|rfl|rfl|rfl|rfl|rfl <;>
    simp [dehydrate_eq]

/-- Witness for c7_formatter_totality_amended: a record without a population
appears in the output with a population key bound to null, not with the key
omitted. -/
theorem c7_formatter_totality_witness :
    aget (dehydrate { _id := 1, _score := 2 }) "population" = some Option.none := by
  have h := c7_formatter_totality_amended { _id := 1, _score := 2 } "population" (by decide)
  simpa using h

/-! ## Claim C9: the topn default truncates every result to empty -/

/-- Claim C9 (confirmed): search_place reads topn with default False, and the
final slice [:topn] is then a slice [:0]; so every call without a topn
keyword returns the empty list no matter how many hits the index returns,
and parse_places and parse_place receive no hits when their caller filters
carry no topn. -/
theorem c9_default_topn_empty :
    (∀ idx place, search_place idx place Option.none = [])
    ∧ (∀ idx nameIdx places,
        parse_places (fun s => search_place idx s Option.none) nameIdx places = [])
    ∧ (∀ idx text, parse_place (fun s => search_place idx s Option.none) text = []) := by
  refine ⟨fun idx place => rfl, fun idx nameIdx places => ?_, fun idx text => rfl⟩
  have hcol : pp_collect (fun s => search_place idx s Option.none) places
      = PPState.mk [] [] [] := by
    induction places with
    | nil => rfl
    | cons p rest ih => exact ih
  unfold parse_places
  rw [hcol]
  rfl

/-! ## Claim C2: the similarity boost -/

theorem aget_amodify_self [DecidableEq K] (l : List (K × V)) (k : K) (f : V → V) :
    aget (amodify l k f) k = (aget l k).map f := by
  induction l with
  | nil => simp [amodify]
  | cons hd t ih =>
    obtain ⟨k', v'⟩ := hd
    by_cases h : k' = k <;> simp [amodify, aget, h, ih]

theorem aget_amodify_ne [DecidableEq K] (l : List (K × V)) (k k₀ : K) (f : V → V)
    (h : k ≠ k₀) : aget (amodify l k f) k₀ = aget l k₀ := by
  induction l with
  | nil => simp [amodify]
  | cons hd t ih =>
    obtain ⟨k', v'⟩ := hd
    by_cases hk : k' = k
    · subst hk
      simp [amodify, aget, h]
    · simp [amodify, aget, hk, ih]

/-- The boosting fold leaves every score alone whose key is not the id1 of
one of the applied similarity records. -/
theorem boost_fold_frame (sims : List SimRec) (sc : List (Nat × ℚ)) (k : Nat)
    (hk : k ∉ sims.map SimRec.id1) :
    aget (sims.foldl (fun sc r => amodify sc r.id1 (fun v => v * (r.similarity * 10))) sc) k
      = aget sc k := by
  induction sims generalizing sc with
  | nil => rfl
  | cons a rest ih =>
    simp only [List.map_cons, List.mem_cons, not_or] at hk
    rw [List.foldl_cons, ih _ hk.2]
    exact aget_amodify_ne sc a.id1 k _ (Ne.symm hk.1)

/-- The boosting fold multiplies the score stored under each applied
record's id1 by that record's similarity times 10, provided the applied id1
keys are distinct. -/
theorem boost_fold_eval (sims : List SimRec) (sc : List (Nat × ℚ))
    (hnd : (sims.map SimRec.id1).Nodup) (r : SimRec) (hr : r ∈ sims) :
    aget (sims.foldl (fun sc r => amodify sc r.id1 (fun v => v * (r.similarity * 10))) sc) r.id1
      = (aget sc r.id1).map (fun v => v * (r.similarity * 10)) := by
  induction sims generalizing sc with
  | nil => simp at hr
  | cons a rest ih =>
    simp only [List.map_cons, List.nodup_cons] at hnd
    rcases List.mem_cons.mp hr with rfl | hr
    · rw [List.foldl_cons, boost_fold_frame rest _ _ hnd.1, aget_amodify_self]
    · have hne : a.id1 ≠ r.id1 := by
        intro he
        exact hnd.1 (he ▸ List.mem_map_of_mem SimRec.id1 hr)
      rw [List.foldl_cons, ih _ hnd.2 hr, aget_amodify_ne _ _ _ _ hne]

/-- Evaluation helper: identical two-token strings have Jaccard overlap 1. -/
theorem jaccard_ab : jaccard "a,b" "a,b" = 1 := by
  have h : jaccard "a,b" "a,b" = (2 : ℚ)/2 := rfl
  rw [h]
  norm_num

/-- Evaluation helper: the similarity list of two identical token strings is
the single pair (1, 2) at similarity 1. -/
theorem sim_ab : similarity [(1, "a,b"), (2, "a,b")] ((9 : ℚ)/10) 10 = [SimRec.mk 1 2 1] := by
  have hle : (9 : ℚ)/10 ≤ 1 := by norm_num
  simp [similarity, allPairs, sortDescBy, insDesc, List.filter, List.take,
    decide_eq_true hle, jaccard_ab]

/-- Evaluation helper: boosting the scores of the two identically-described
hits multiplies only the score under id1. -/
theorem boost_ab :
    boost_scores [(1, (1 : ℚ)), (2, 1)] [(1, "a,b"), (2, "a,b")] = [(1, 10), (2, 1)] := by
  simp [boost_scores, sim_ab, amodify]

/-- Claim C2, counterexample: two hits with identical context token strings
form the single (and hence top) similarity pair, with similarity 1; the
claim says both hits' scores are multiplied by similarity * 10, but the
boosting loop multiplies only the score under id1: starting from score 1 for
both hits, hit 1 ends at 10 while hit 2 — the id2 of the pair — keeps
score 1 instead of the claimed 10. -/
theorem c2_similarity_boost_cex :
    similarity [(1, "a,b"), (2, "a,b")] ((9 : ℚ)/10) 10 = [SimRec.mk 1 2 1]
    ∧ boost_scores [(1, (1 : ℚ)), (2, 1)] [(1, "a,b"), (2, "a,b")] = [(1, 10), (2, 1)] :=
  ⟨sim_ab, boost_ab⟩

/-- Claim C2, amended: for each of the (up to) two top similarity records,
the boosting loop multiplies the relevance score stored under the record's
id1 — and only that one — by similarity * 10; the score of the record's id2
is unchanged unless that id happens to be the id1 of the other applied
record (the distinctness hypothesis).  The final descending sort then runs
on these scores. -/
theorem c2_similarity_boost_amended (scores : List (Nat × ℚ)) (toks : List (Nat × String))
    (hnd : (((similarity toks ((9 : ℚ)/10) 10).take 2).map SimRec.id1).Nodup) :
    (∀ r ∈ (similarity toks ((9 : ℚ)/10) 10).take 2,
        aget (boost_scores scores toks) r.id1
          = (aget scores r.id1).map (fun v => v * (r.similarity * 10)))
    ∧ (∀ k, k ∉ ((similarity toks ((9 : ℚ)/10) 10).take 2).map SimRec.id1 →
        aget (boost_scores scores toks) k = aget scores k) :=
  ⟨fun r hr => boost_fold_eval _ scores hnd r hr,
   fun k hk => boost_fold_frame _ scores k hk⟩

/-- Witness for c2_similarity_boost_amended at the concrete counterexample
input: hit 2 is the id2 of the only similarity pair and its score survives
the boost unchanged. -/
theorem c2_similarity_boost_amended_witness :
    aget (boost_scores [(1, (1 : ℚ)), (2, 1)] [(1, "a,b"), (2, "a,b")]) 2 = some 1 := by
  have h := (c2_similarity_boost_amended [(1, (1 : ℚ)), (2, 1)] [(1, "a,b"), (2, "a,b")]
      (by rw [sim_ab]; decide)).2 2 (by rw [sim_ab]; decide)
  rw [h]
  rfl

/-! ## Claim C3: the single-hit shortcut -/

/-- Claim C3 (confirmed): when the accumulated hits mapping of parse_places
holds exactly one hit across all place strings of the text, the hit is
dehydrated and returned directly; the result does not depend on the name
oracle, because neither the containment filter nor the similarity scoring
nor the hierarchy resolution runs. -/
theorem c3_single_hit_shortcut (sp : String → List Rec) (nameIdx : Nat → Option String)
    (places : List String) (k : Nat) (v : Rec)
    (h : (pp_collect sp places).hits = [(k, v)]) :
    parse_places sp nameIdx places = [dehydrate v] := by
  unfold parse_places
  rcases hpp : pp_collect sp places with ⟨hs, ls, ps⟩
  rw [hpp] at h
  simp only at h
  subst h
  rfl

/-! ## Claim C8: search memoization in parse -/

theorem aget_eq_none_of_not_mem_keys [DecidableEq K] {l : List (K × V)} {k : K}
    (h : k ∉ l.map Prod.fst) : aget l k = Option.none := by
  cases ha : aget l k with
  | none => rfl
  | some v => exact absurd (mem_keys_of_aget_isSome ha) h

theorem aset_keys_of_not_mem [DecidableEq K] (l : List (K × V)) (k : K) (v : V)
    (h : k ∉ l.map Prod.fst) : (aset l k v).map Prod.fst = l.map Prod.fst ++ [k] := by
  induction l with
  | nil => simp
  | cons hd t ih =>
    obtain ⟨k', v'⟩ := hd
    simp only [List.map_cons, List.mem_cons, not_or] at h
    simp [aset, Ne.symm h.1, ih h.2]

/-- Counting helper: adding one fresh name to the seen set and one name to
the pending names preserves the count of pending distinct unseen names. -/
theorem card_insert_sdiff [DecidableEq α] (a : α) (s t : Finset α) (ha : a ∉ t) :
    (insert a s \ t).card = 1 + (s \ insert a t).card := by
  have h1 : insert a s \ t = insert a (s \ t) := by
    ext x
    simp only [Finset.mem_sdiff, Finset.mem_insert]
    constructor
    · rintro ⟨rfl | hx, hxt⟩
      · exact Or.inl rfl
      · exact Or.inr ⟨hx, hxt⟩
    · rintro (rfl | ⟨hx, hxt⟩)
      · exact ⟨Or.inl rfl, ha⟩
      · exact ⟨Or.inr hx, hxt⟩
  have h2 : s \ insert a t = (s \ t).erase a := by
    ext x
    simp only [Finset.mem_sdiff, Finset.mem_insert, Finset.mem_erase, not_or]
    tauto
  rw [h1, h2]
  by_cases hm : a ∈ s \ t
  · have hcard := Finset.card_erase_of_mem hm
    have hpos : 0 < (s \ t).card := Finset.card_pos.mpr ⟨a, hm⟩
    rw [Finset.insert_eq_self.mpr hm, hcard]
    omega
  · rw [Finset.card_insert_of_not_mem hm, Finset.erase_eq_of_not_mem hm]
    omega

/-- First element of a list after the topn-1 slice: same as the first
element of the unsliced list. -/
theorem search_head (idx : String → List Rec) (nm : String) :
    (search_place idx nm (some 1)).head? = (idx nm).head? := by
  cases h : idx nm with
  | nil => simp [search_place, pysliceTopn, h]
  | cons a t => simp [search_place, pysliceTopn, h]

/-- The invariant run of the parse loop: as long as every cached entry agrees
with what a fresh query would return, the emitted results equal those of the
cache-free semantics, and the number of queries issued equals the number of
distinct cleaned names not yet in the cache. -/
theorem parse_go_spec (idx : String → List Rec) (clean : String → String)
    (merge : Rec → String → Rec) (places : List String)
    (cache : List (String × Option Rec))
    (hc : ∀ nm f, aget cache nm = some f → f = (idx nm).head?) :
    (parse_go idx clean merge places cache).1
      = (places.map (fun p => emit merge ((idx (clean p)).head?) p)).flatten
    ∧ (parse_go idx clean merge places cache).2.2
      = ((places.map clean).toFinset \ (cache.map Prod.fst).toFinset).card := by
  induction places generalizing cache with
  | nil => simp [parse_go]
  | cons p rest ih =>
    cases hg : aget cache (clean p) with
    | some f =>
      have hf : f = (idx (clean p)).head? := hc (clean p) f hg
      have hmem : clean p ∈ (cache.map Prod.fst).toFinset :=
        List.mem_toFinset.mpr (mem_keys_of_aget_isSome hg)
      have h := ih cache hc
      constructor
      · simp only [parse_go, hg, h.1, hf, List.map_cons, List.flatten_cons]
      · simp only [parse_go, hg, h.2, List.map_cons, List.toFinset_cons,
          Finset.insert_sdiff_of_mem _ hmem]
    | none =>
      have hnm : clean p ∉ cache.map Prod.fst := by
        intro hmem
        obtain ⟨v, hv⟩ := aget_isSome_of_mem_keys hmem
        rw [hv] at hg
        exact Option.noConfusion hg
      have hc' : ∀ nm f,
          aget (aset cache (clean p) ((search_place idx (clean p) (some 1)).head?)) nm = some f →
          f = (idx nm).head? := by
        intro nm f hf
        by_cases he : clean p = nm
        · subst he
          rw [aget_aset_self] at hf
          rw [← Option.some_inj.mp hf, search_head]
        · rw [aget_aset_ne _ _ _ _ he] at hf
          exact hc nm f hf
      have h := ih _ hc'
      rw [search_head] at h
      constructor
      · simp only [parse_go, hg, search_head, h.1, List.map_cons, List.flatten_cons]
      · have hkeys : ((aset cache (clean p) ((idx (clean p)).head?)).map Prod.fst).toFinset
            = insert (clean p) (cache.map Prod.fst).toFinset := by
          rw [aset_keys_of_not_mem _ _ _ hnm]
          simp [List.toFinset_append, Finset.union_comm, Finset.insert_eq]
        simp only [parse_go, hg, search_head, h.2, hkeys, List.map_cons, List.toFinset_cons]
        rw [Nat.add_comm]
        exact (card_insert_sdiff (clean p) _ _ (fun hm => hnm (List.mem_toFinset.mp hm))).symm

/-- Claim C8 (confirmed): within one parse call, a repeated cleaned place
string issues no second index query — the query count equals the number of
distinct cleaned names, an empty first result being cached and counted the
same way — and the emitted results are exactly those of the cache-free
semantics, so the first query's result is reused. -/
theorem c8_search_memoization (idx : String → List Rec) (clean : String → String)
    (merge : Rec → String → Rec) (places : List String) :
    (parse idx clean merge places).2.2 = (places.map clean).toFinset.card
    ∧ (parse idx clean merge places).1
      = (places.map (fun p => emit merge ((idx (clean p)).head?) p)).flatten := by
  have h := parse_go_spec idx clean merge places []
    (by intro nm f hf; simp [aget] at hf)
  exact ⟨by simpa using h.2, h.1⟩

/-- A one-hit index: the query string a finds one hit, everything else
finds nothing. -/
def spW : String → List Rec :=
  fun s => if s = "a" then [{ _id := 5, _score := 2, name := some "N" }] else []

/-- Witness for c3_single_hit_shortcut: two place strings, one total hit,
returned dehydrated directly. -/
theorem c3_single_hit_shortcut_witness :
    parse_places spW idxNone ["a", "b"]
      = [dehydrate { _id := 5, _score := 2, name := some "N", place := some "a" }] :=
  c3_single_hit_shortcut spW idxNone ["a", "b"] 5
    { _id := 5, _score := 2, name := some "N", place := some "a" } rfl

/-! ## Invariants of the main loop of _filter_places -/

theorem bt_set_bt_set (h : Rec) (l l' : List String) : bt_set (bt_set h l) l' = bt_set h l' := rfl

theorem bt_set_id (h : Rec) (l : List String) : (bt_set h l)._id = h._id := rfl

theorem amodify_keys [DecidableEq K] (l : List (K × V)) (k : K) (f : V → V) :
    (amodify l k f).map Prod.fst = l.map Prod.fst := by
  induction l with
  | nil => rfl
  | cons hd t ih =>
    obtain ⟨k', v'⟩ := hd
    by_cases h : k' = k
    · subst h
      simp [amodify]
    · simp [amodify, h, ih]

theorem boost_keys (sc : List (Nat × ℚ)) (tk : List (Nat × String)) :
    (boost_scores sc tk).map Prod.fst = sc.map Prod.fst := by
  unfold boost_scores
  generalize (similarity tk ((9 : ℚ)/10) 10).take 2 = sims
  induction sims generalizing sc with
  | nil => rfl
  | cons a rest ih => rw [List.foldl_cons, ih, amodify_keys]

theorem mem_insDesc {f : α → ℚ} {x y : α} {l : List α} (h : y ∈ insDesc f x l) :
    y = x ∨ y ∈ l := by
  induction l with
  | nil => simpa [insDesc] using h
  | cons a t ih =>
    by_cases hc : f a ≤ f x
    · simpa [insDesc, hc, List.mem_cons] using h
    · simp only [insDesc, hc, if_false, List.mem_cons] at h
      rcases h with rfl | h
      · exact Or.inr (List.mem_cons_self _ _)
      · rcases ih h with rfl | h'
        · exact Or.inl rfl
        · exact Or.inr (List.mem_cons_of_mem _ h')

theorem mem_sortDescBy {f : α → ℚ} {y : α} {l : List α} (h : y ∈ sortDescBy f l) : y ∈ l := by
  induction l with
  | nil => exact absurd h (List.not_mem_nil y)
  | cons a t ih =>
    rcases mem_insDesc h with rfl | h'
    · exact List.mem_cons_self _ _
    · exact List.mem_cons_of_mem _ (ih h')

theorem mem_of_head?_eq {l : List α} {a : α} (h : l.head? = some a) : a ∈ l := by
  cases l with
  | nil => exact Option.noConfusion h
  | cons x t =>
    simp only [List.head?_cons, Option.some_inj] at h
    exact h ▸ List.mem_cons_self _ _

theorem aget_foldl_aset [DecidableEq K] (ups : List (K × V)) (cur : List (K × V)) (k : K)
    (hnd : (ups.map Prod.fst).Nodup) :
    aget (ups.foldl (fun c u => aset c u.1 u.2) cur) k
      = match aget ups k with
        | some v => some v
        | Option.none => aget cur k := by
  induction ups generalizing cur with
  | nil => simp [aget]
  | cons u rest ih =>
    obtain ⟨ku, vu⟩ := u
    simp only [List.map_cons, List.nodup_cons] at hnd
    rw [List.foldl_cons, ih _ hnd.2]
    by_cases hk : ku = k
    · subst hk
      have hrest : aget rest ku = (Option.none : Option V) :=
        aget_eq_none_of_not_mem_keys hnd.1
      rw [hrest]
      simp [aget, aget_aset_self]
    · simp only [aget_cons, hk, if_false]
      cases hr : aget rest k with
      | some v => rfl
      | none => exact aget_aset_ne _ _ _ _ hk

theorem aget_foldl_aset_not_mem [DecidableEq K] (ups : List (K × V)) (cur : List (K × V))
    (k : K) (hk : k ∉ ups.map Prod.fst) :
    aget (ups.foldl (fun c u => aset c u.1 u.2) cur) k = aget cur k := by
  induction ups generalizing cur with
  | nil => rfl
  | cons u rest ih =>
    simp only [List.map_cons, List.mem_cons, not_or] at hk
    rw [List.foldl_cons, ih _ hk.2]
    exact aget_aset_ne _ _ _ _ (Ne.symm hk.1)

theorem foldl_aset_keys [DecidableEq K] (ups : List (K × V)) (cur : List (K × V))
    (h : ∀ u ∈ ups, u.1 ∈ cur.map Prod.fst) :
    (ups.foldl (fun c u => aset c u.1 u.2) cur).map Prod.fst = cur.map Prod.fst := by
  induction ups generalizing cur with
  | nil => rfl
  | cons u rest ih =>
    rw [List.foldl_cons]
    have hk := aset_keys_of_mem cur u.1 u.2 (h u (List.mem_cons_self _ _))
    rw [ih _ (fun u' hu' => by rw [hk]; exact h u' (List.mem_cons_of_mem _ hu')), hk]

/-- The keys of the overwritten entries are the keys of the visited
entries. -/
theorem fp_upd_keys (nameIdx : Nat → Option String) (cur : List (Nat × Rec))
    (pl : String × List Nat) :
    (fp_upd nameIdx cur pl).map Prod.fst = (fp_scored cur pl).map Prod.fst := by
  unfold fp_upd
  induction fp_scored cur pl with
  | nil => rfl
  | cons a t ih => simp [ih]

/-- The visited entries form a sublist of the current mapping. -/
theorem fp_scored_sublist (cur : List (Nat × Rec)) (pl : String × List Nat) :
    List.Sublist (fp_scored cur pl) cur :=
  List.filter_sublist cur

/-- Lookup into the overwritten entries of one place string: present exactly
for the current entries whose key is in the place string's id list. -/
theorem aget_fp_upd (nameIdx : Nat → Option String) (cur : List (Nat × Rec))
    (pl : String × List Nat) (k : Nat) (hnd : (cur.map Prod.fst).Nodup) :
    aget (fp_upd nameIdx cur pl) k
      = match aget cur k with
        | some h =>
            if k ∈ pl.2 then
              some (bt_set h ((resolve_belongsto nameIdx h).map Prod.snd))
            else Option.none
        | Option.none => Option.none := by
  induction cur with
  | nil => rfl
  | cons hd t ih =>
    obtain ⟨k', h'⟩ := hd
    simp only [List.map_cons, List.nodup_cons] at hnd
    by_cases hk : k' = k
    · subst hk
      by_cases hp : k' ∈ pl.2
      · simp [fp_upd, fp_scored, aget, hp]
      · have hnone : aget (fp_upd nameIdx t pl) k' = Option.none := by
          apply aget_eq_none_of_not_mem_keys
          rw [fp_upd_keys]
          intro hmem
          exact hnd.1 (((fp_scored_sublist t pl).map Prod.fst).subset hmem)
        have hstep : fp_upd nameIdx ((k', h') :: t) pl = fp_upd nameIdx t pl := by
          simp [fp_upd, fp_scored, List.filter_cons, hp]
        rw [hstep, hnone]
        simp [aget, hp]
    · by_cases hp : k' ∈ pl.2
      · have hstep : fp_upd nameIdx ((k', h') :: t) pl
            = (k', bt_set h' ((resolve_belongsto nameIdx h').map Prod.snd))
              :: fp_upd nameIdx t pl := by
          simp [fp_upd, fp_scored, List.filter_cons, hp]
        rw [hstep]
        simpa [aget, hk] using ih hnd.2
      · have hstep : fp_upd nameIdx ((k', h') :: t) pl = fp_upd nameIdx t pl := by
          simp [fp_upd, fp_scored, List.filter_cons, hp]
        rw [hstep]
        simpa [aget, hk] using ih hnd.2

/-- Keys of fp_upd are keys of the current mapping. -/
theorem fp_upd_keys_sub (nameIdx : Nat → Option String) (cur : List (Nat × Rec))
    (pl : String × List Nat) (u : Nat × Rec) (hu : u ∈ fp_upd nameIdx cur pl) :
    u.1 ∈ cur.map Prod.fst := by
  have h1 : u.1 ∈ (fp_upd nameIdx cur pl).map Prod.fst := List.mem_map_of_mem Prod.fst hu
  rw [fp_upd_keys] at h1
  exact ((fp_scored_sublist cur pl).map Prod.fst).subset h1

/-- The hits mapping after one place string keeps exactly its key list. -/
theorem fp_cur_keys (nameIdx : Nat → Option String) (cur : List (Nat × Rec))
    (pl : String × List Nat) :
    (fp_cur nameIdx cur pl).map Prod.fst = cur.map Prod.fst :=
  foldl_aset_keys _ _ (fun u hu => fp_upd_keys_sub nameIdx cur pl u hu)

/-- Pointwise description of the hits mapping after one place string: the
entries whose key the place string lists are overwritten with resolved
display names in belongsto, everything else is untouched. -/
theorem aget_fp_cur (nameIdx : Nat → Option String) (cur : List (Nat × Rec))
    (pl : String × List Nat) (k : Nat) (hnd : (cur.map Prod.fst).Nodup) :
    aget (fp_cur nameIdx cur pl) k
      = match aget cur k with
        | some h =>
            if k ∈ pl.2 then
              some (bt_set h ((resolve_belongsto nameIdx h).map Prod.snd))
            else some h
        | Option.none => Option.none := by
  have hndu : ((fp_upd nameIdx cur pl).map Prod.fst).Nodup := by
    rw [fp_upd_keys]
    exact ((fp_scored_sublist cur pl).map Prod.fst).nodup hnd
  rw [fp_cur, aget_foldl_aset _ _ _ hndu, aget_fp_upd nameIdx cur pl k hnd]
  cases ha : aget cur k with
  | none => rfl
  | some h =>
    by_cases hp : k ∈ pl.2
    · simp [hp]
    · simp [hp, ha]

/-- A winning key comes from the place string's id list and from the keys of
the current hits mapping. -/
theorem fp_winner_mem (nameIdx : Nat → Option String) (cur : List (Nat × Rec))
    (pl : String × List Nat) (s : Nat × ℚ) (hw : fp_winner nameIdx cur pl = some s) :
    s.1 ∈ pl.2 ∧ s.1 ∈ cur.map Prod.fst := by
  have hs := mem_sortDescBy (mem_of_head?_eq hw)
  have hkeys : s.1 ∈ (boost_scores ((fp_upd nameIdx cur pl).map (fun u => (u.1, u.2._score)))
      ((fp_upd nameIdx cur pl).map (fun u => (u.1, _get_tokens u.2)))).map Prod.fst :=
    List.mem_map_of_mem Prod.fst hs
  rw [boost_keys] at hkeys
  have hscored : s.1 ∈ (fp_scored cur pl).map Prod.fst := by
    have he : ((fp_upd nameIdx cur pl).map (fun u => (u.1, u.2._score))).map Prod.fst
        = (fp_upd nameIdx cur pl).map Prod.fst := by
      induction fp_upd nameIdx cur pl with
      | nil => rfl
      | cons a t ih => simp [ih]
    rw [he, fp_upd_keys] at hkeys
    exact hkeys
  rcases List.mem_map.mp hscored with ⟨kv, hkv, hfst⟩
  have hkv' : kv ∈ cur.filter (fun kv => decide (kv.1 ∈ pl.2)) := hkv
  constructor
  · have := List.of_mem_filter hkv'
    rw [← hfst]
    exact of_decide_eq_true this
  · rw [← hfst]
    exact List.mem_map_of_mem Prod.fst ((fp_scored_sublist cur pl).subset hkv)

/-- Keys are preserved across the whole main loop. -/
theorem fp_fold_keys (nameIdx : Nat → Option String) (pls : List (String × List Nat))
    (acc : List Nat × List (Nat × Rec)) :
    (fp_fold nameIdx acc pls).2.map Prod.fst = acc.2.map Prod.fst := by
  induction pls generalizing acc with
  | nil => rfl
  | cons pl rest ih =>
    rw [fp_fold, ih]
    exact fp_cur_keys nameIdx acc.2 pl

/-- Every entry of the final hits mapping is the original entry, possibly
with its belongsto overwritten by a list of display names. -/
theorem fp_fold_val (nameIdx : Nat → Option String) (pls : List (String × List Nat))
    (acc : List Nat × List (Nat × Rec)) (k : Nat) (hnd : (acc.2.map Prod.fst).Nodup) :
    aget (fp_fold nameIdx acc pls).2 k = aget acc.2 k
    ∨ ∃ h l, aget acc.2 k = some h
        ∧ aget (fp_fold nameIdx acc pls).2 k = some (bt_set h l) := by
  induction pls generalizing acc with
  | nil => exact Or.inl rfl
  | cons pl rest ih =>
    have hnd' : ((fp_cur nameIdx acc.2 pl).map Prod.fst).Nodup := by
      rw [fp_cur_keys]
      exact hnd
    have hstep := aget_fp_cur nameIdx acc.2 pl k hnd
    rcases ih (fp_step nameIdx acc pl) hnd' with h1 | ⟨h, l, hcur, hfin⟩
    · rw [fp_fold, h1]
      show aget (fp_cur nameIdx acc.2 pl) k = aget acc.2 k ∨ _
      cases ha : aget acc.2 k with
      | none =>
        simp only [ha] at hstep
        exact Or.inl hstep
      | some h0 =>
        simp only [ha] at hstep
        by_cases hp : k ∈ pl.2
        · rw [if_pos hp] at hstep
          exact Or.inr ⟨h0, _, rfl, hstep⟩
        · rw [if_neg hp] at hstep
          exact Or.inl hstep
    · show _ ∨ ∃ h l, aget acc.2 k = some h ∧ aget (fp_fold nameIdx (fp_step nameIdx acc pl) rest).2 k = some (bt_set h l)
      have hc : aget (fp_cur nameIdx acc.2 pl) k = some h := hcur
      cases ha : aget acc.2 k with
      | none =>
        simp only [ha] at hstep
        rw [hstep] at hc
        exact Option.noConfusion hc
      | some h0 =>
        simp only [ha] at hstep
        by_cases hp : k ∈ pl.2
        · rw [if_pos hp] at hstep
          rw [hstep] at hc
          have hh : h = bt_set h0 ((resolve_belongsto nameIdx h0).map Prod.snd) :=
            (Option.some_inj.mp hc).symm
          exact Or.inr ⟨h0, l, rfl, by rw [hfin, hh, bt_set_bt_set]⟩
        · rw [if_neg hp] at hstep
          rw [hstep] at hc
          have hh : h = h0 := (Option.some_inj.mp hc).symm
          exact Or.inr ⟨h0, l, rfl, by rw [hfin, hh]⟩

/-- Entries whose key no processed place string lists are untouched. -/
theorem fp_fold_frame (nameIdx : Nat → Option String) (pls : List (String × List Nat))
    (acc : List Nat × List (Nat × Rec)) (k : Nat) (hk : ∀ pl ∈ pls, k ∉ pl.2) :
    aget (fp_fold nameIdx acc pls).2 k = aget acc.2 k := by
  induction pls generalizing acc with
  | nil => rfl
  | cons pl rest ih =>
    rw [fp_fold, ih _ (fun q hq => hk q (List.mem_cons_of_mem _ hq))]
    show aget (fp_cur nameIdx acc.2 pl) k = aget acc.2 k
    apply aget_foldl_aset_not_mem
    rw [fp_upd_keys]
    intro hmem
    rcases List.mem_map.mp hmem with ⟨kv, hkv, hfst⟩
    have hkv' : kv ∈ acc.2.filter (fun kv => decide (kv.1 ∈ pl.2)) := hkv
    have hb : kv.1 ∈ pl.2 := by
      have := (List.mem_filter.mp hkv').2
      simpa using this
    exact hk pl (List.mem_cons_self _ _) (hfst ▸ hb)

/-- Entries whose key some processed place string lists end up with their
belongsto overwritten by display names. -/
theorem fp_fold_visited (nameIdx : Nat → Option String) (pls : List (String × List Nat))
    (acc : List Nat × List (Nat × Rec)) (k : Nat) (hnd : (acc.2.map Prod.fst).Nodup)
    (hkm : k ∈ acc.2.map Prod.fst) (hv : ∃ pl ∈ pls, k ∈ pl.2) :
    ∃ h l, aget acc.2 k = some h
      ∧ aget (fp_fold nameIdx acc pls).2 k = some (bt_set h l) := by
  induction pls generalizing acc with
  | nil =>
    rcases hv with ⟨pl, hpl, _⟩
    exact absurd hpl (List.not_mem_nil pl)
  | cons pl rest ih =>
    have hnd' : ((fp_cur nameIdx acc.2 pl).map Prod.fst).Nodup := by
      rw [fp_cur_keys]
      exact hnd
    have hkm' : k ∈ (fp_cur nameIdx acc.2 pl).map Prod.fst := by
      rw [fp_cur_keys]
      exact hkm
    obtain ⟨h0, hh0⟩ := aget_isSome_of_mem_keys hkm
    have hstep := aget_fp_cur nameIdx acc.2 pl k hnd
    simp only [hh0] at hstep
    by_cases hp : k ∈ pl.2
    · rw [if_pos hp] at hstep
      rcases fp_fold_val nameIdx rest (fp_step nameIdx acc pl) k hnd' with h1 | ⟨h, l, hcur, hfin⟩
      · refine ⟨h0, (resolve_belongsto nameIdx h0).map Prod.snd, hh0, ?_⟩
        rw [fp_fold, h1]
        exact hstep
      · have hc : aget (fp_cur nameIdx acc.2 pl) k = some h := hcur
        rw [hstep] at hc
        have hh : h = bt_set h0 ((resolve_belongsto nameIdx h0).map Prod.snd) :=
          (Option.some_inj.mp hc).symm
        exact ⟨h0, l, hh0, by rw [fp_fold, hfin, hh, bt_set_bt_set]⟩
    · rw [if_neg hp] at hstep
      rcases hv with ⟨q, hq, hkq⟩
      rcases List.mem_cons.mp hq with rfl | hq'
      · exact absurd hkq hp
      · have := ih (fp_step nameIdx acc pl) hnd' hkm' ⟨q, hq', hkq⟩
        rcases this with ⟨h, l, hcur, hfin⟩
        have hc : aget (fp_cur nameIdx acc.2 pl) k = some h := hcur
        rw [hstep] at hc
        have hh : h = h0 := (Option.some_inj.mp hc).symm
        exact ⟨h0, l, hh0, by rw [fp_fold, hfin, hh]⟩

/-- Every chosen winner key was already chosen or is listed by one of the
processed place strings and is a key of the hits mapping. -/
theorem fp_fold_chosen (nameIdx : Nat → Option String) (pls : List (String × List Nat))
    (acc : List Nat × List (Nat × Rec)) (k : Nat) (hk : k ∈ (fp_fold nameIdx acc pls).1) :
    k ∈ acc.1 ∨ ((∃ pl ∈ pls, k ∈ pl.2) ∧ k ∈ acc.2.map Prod.fst) := by
  induction pls generalizing acc with
  | nil => exact Or.inl hk
  | cons pl rest ih =>
    rw [fp_fold] at hk
    rcases ih (fp_step nameIdx acc pl) hk with h1 | ⟨⟨q, hq, hkq⟩, hkm⟩
    · cases hw : fp_winner nameIdx acc.2 pl with
      | none =>
        have : (fp_step nameIdx acc pl).1 = acc.1 := by
          simp [fp_step, hw]
        rw [this] at h1
        exact Or.inl h1
      | some s =>
        have : (fp_step nameIdx acc pl).1 = acc.1 ++ [s.1] := by
          simp [fp_step, hw]
        rw [this] at h1
        rcases List.mem_append.mp h1 with h2 | h2
        · exact Or.inl h2
        · have hks : k = s.1 := by simpa using h2
          have hm := fp_winner_mem nameIdx acc.2 pl s hw
          exact Or.inr ⟨⟨pl, List.mem_cons_self _ _, hks ▸ hm.1⟩, hks ▸ hm.2⟩
    · have hkm0 : k ∈ acc.2.map Prod.fst := by
        have : (fp_step nameIdx acc pl).2.map Prod.fst = acc.2.map Prod.fst :=
          fp_cur_keys nameIdx acc.2 pl
        rw [← this]
        exact hkm
      exact Or.inr ⟨⟨q, List.mem_cons_of_mem _ hq, hkq⟩, hkm0⟩

/-- Specification of the result list of _filter_places: every returned
record is the final value of a key listed by a surviving place string, is an
original hit possibly with its belongsto overwritten, and keeps the original
hit's id. -/
theorem filter_places_result_spec (nameIdx : Nat → Option String)
    (hits : List (Nat × Rec)) (locs : List (Nat × List Nat))
    (pls : List (String × List Nat)) (hnd : (hits.map Prod.fst).Nodup)
    (r : Rec) (hr : r ∈ (_filter_places nameIdx hits locs pls).1) :
    ∃ k pl h₀, pl ∈ filtered_places hits locs pls ∧ k ∈ pl.2
      ∧ aget hits k = some h₀ ∧ r._id = h₀._id
      ∧ (r = h₀ ∨ ∃ l, r = bt_set h₀ l) := by
  rcases List.mem_filterMap.mp hr with ⟨k, hk, hak⟩
  have hch := fp_fold_chosen nameIdx (filtered_places hits locs pls) ([], hits) k hk
  rcases hch with h1 | ⟨⟨pl, hpl, hkpl⟩, _⟩
  · exact absurd h1 (List.not_mem_nil k)
  rcases fp_fold_val nameIdx (filtered_places hits locs pls) ([], hits) k hnd with h2 | ⟨h, l, hcur, hfin⟩
  · rw [h2] at hak
    exact ⟨k, pl, r, hpl, hkpl, hak, rfl, Or.inl rfl⟩
  · rw [hfin] at hak
    have hr2 : r = bt_set h l := (Option.some_inj.mp hak).symm
    exact ⟨k, pl, h, hpl, hkpl, hcur, by rw [hr2, bt_set_id], Or.inr ⟨l, hr2⟩⟩

/-! ## Claim C1: containment exclusion -/

/-- Three hits: 1 and 2 found for place string p, 2 also found for place
string q, and 3 an ancestor-carrying hit whose belongsto names hit 1. -/
def hitsC1 : List (Nat × Rec) :=
  [(1, { _id := 1, _score := 1 }), (2, { _id := 2, _score := 1 }),
   (3, { _id := 3, _score := 1, belongsto := BT.ids [1] })]

/-- Claim C1, counterexample: hit 1 appears in hit 3's belongsto, so place
string p — whose id list [1, 2] contains 1 — is dropped, as the claim says;
but the claim also says every hit found for that place string (its whole
branch, here hit 2 as well) is absent from the result, and hit 2 survives,
because it was also found for the surviving place string q: the result is
exactly the record with id 2, a member of the dropped branch [1, 2]. -/
theorem c1_containment_exclusion_cex :
    (aget hitsC1 3).map Rec.belongsto = some (BT.ids [1])
    ∧ filtered_places hitsC1 [(3, [1])] [("p", [1, 2]), ("q", [2])] = [("q", [2])]
    ∧ (_filter_places idxNone hitsC1 [(3, [1])] [("p", [1, 2]), ("q", [2])]).1.map Rec._id
      = [2] :=
  ⟨rfl, rfl, rfl⟩

/-- Claim C1, amended: if hit A's id appears in hit B's belongsto and both
are keys of the hits mapping, then every place string whose hit id list
contains A is dropped from the surviving places, and — provided distinct
place strings list disjoint hit ids, which holds whenever no two place
strings share a search hit — no hit of any place string containing A appears
in the result, so A's branch is entirely absent. -/
theorem c1_containment_exclusion_amended (nameIdx : Nat → Option String)
    (hits : List (Nat × Rec)) (locs : List (Nat × List Nat))
    (pls : List (String × List Nat)) (A B : Nat) (bl : List Nat)
    (hndk : (hits.map Prod.fst).Nodup)
    (hid : ∀ kv ∈ hits, kv.2._id = kv.1)
    (hA : A ∈ hits.map Prod.fst) (_hBk : B ∈ hits.map Prod.fst)
    (hB : (B, bl) ∈ locs) (hAbl : A ∈ bl)
    (hdisj : ∀ pl ∈ pls, ∀ ql ∈ pls, pl ≠ ql → ∀ i ∈ pl.2, i ∉ ql.2) :
    (∀ pl ∈ filtered_places hits locs pls, A ∉ pl.2)
    ∧ (∀ pl ∈ pls, A ∈ pl.2 →
        ∀ r ∈ (_filter_places nameIdx hits locs pls).1, r._id ∉ pl.2) := by
  have hAhi : A ∈ ids_hilevel hits locs := by
    apply List.mem_filter.mpr
    refine ⟨hA, ?_⟩
    simp only [decide_eq_true_eq]
    apply List.mem_flatten.mpr
    exact ⟨bl, List.mem_map_of_mem Prod.snd hB, hAbl⟩
  have hpart1 : ∀ pl ∈ filtered_places hits locs pls, A ∉ pl.2 := by
    intro pl hpl hA2
    have hpl' : pl ∈ pls.filter
        (fun pl => !(pl.2.any (fun i => decide (i ∈ ids_hilevel hits locs)))) := hpl
    have h2 := (List.mem_filter.mp hpl').2
    simp only [Bool.not_eq_eq_eq_not, Bool.not_true, List.any_eq_false] at h2
    exact h2 A hA2 (decide_eq_true hAhi)
  refine ⟨hpart1, ?_⟩
  intro pl hpl hApl r hr
  rcases filter_places_result_spec nameIdx hits locs pls hndk r hr with
    ⟨k, pl', h₀, hpl', hkpl', hk0, hid1, _⟩
  have hidk : r._id = k := by
    rw [hid1]
    exact hid (k, h₀) (aget_mem hk0)
  intro hrpl
  rw [hidk] at hrpl
  have hApl' : A ∉ pl'.2 := hpart1 pl' hpl'
  have hne : pl ≠ pl' := fun he => hApl' (he ▸ hApl)
  have hplmem : pl' ∈ pls := by
    have hpl'' : pl' ∈ pls.filter
        (fun pl => !(pl.2.any (fun i => decide (i ∈ ids_hilevel hits locs)))) := hpl'
    exact List.mem_of_mem_filter hpl''
  exact hdisj pl hpl pl' hplmem hne k hrpl hkpl'

/-- Witness for c1_containment_exclusion_amended: hit 1 is named by hit 3's
belongsto under disjoint place string id lists [1] and [2]; the place
containing 1 is dropped and no result record carries an id from it. -/
theorem c1_containment_exclusion_amended_witness :
    (∀ pl ∈ filtered_places hitsC1 [(3, [1])] [("p", [1]), ("q", [2])], 1 ∉ pl.2)
    ∧ (∀ pl ∈ [("p", [1]), ("q", [2])], 1 ∈ pl.2 →
        ∀ r ∈ (_filter_places idxNone hitsC1 [(3, [1])] [("p", [1]), ("q", [2])]).1,
          r._id ∉ pl.2) :=
  c1_containment_exclusion_amended idxNone hitsC1 [(3, [1])] [("p", [1]), ("q", [2])]
    1 3 [1] (by decide) (by decide) (by decide) (by decide) (by decide) (by decide)
    (by decide)

/-! ## Claim C4: the Disambiguator never raises -/

/-- The place string to hit ids mapping with every id that is not a key of
the hits mapping removed. -/
def prune_place_locs (hits : List (Nat × Rec)) (pls : List (String × List Nat)) :
    List (String × List Nat) :=
  pls.map (fun pl => (pl.1, pl.2.filter (fun i => decide (i ∈ hits.map Prod.fst))))

theorem filter_congr_members (p q : α → Bool) (l : List α) (h : ∀ a ∈ l, p a = q a) :
    l.filter p = l.filter q := by
  induction l with
  | nil => rfl
  | cons a t ih =>
    rw [List.filter_cons, List.filter_cons, h a (List.mem_cons_self a t),
      ih (fun b hb => h b (List.mem_cons_of_mem _ hb))]

theorem filter_map_comm (f : α → β) (p : β → Bool) (l : List α) :
    (l.map f).filter p = (l.filter (fun a => p (f a))).map f := by
  induction l with
  | nil => rfl
  | cons a t ih =>
    cases h : p (f a) <;> simp [List.filter_cons, h, ih]

/-- Dropping unknown ids does not change whether a place string survives
containment filtering. -/
theorem any_hilevel_filter_keys (hits : List (Nat × Rec)) (locs : List (Nat × List Nat))
    (l : List Nat) :
    (l.filter (fun i => decide (i ∈ hits.map Prod.fst))).any
        (fun i => decide (i ∈ ids_hilevel hits locs))
      = l.any (fun i => decide (i ∈ ids_hilevel hits locs)) := by
  induction l with
  | nil => rfl
  | cons a t ih =>
    by_cases hk : a ∈ hits.map Prod.fst
    · simp [List.filter_cons, decide_eq_true hk, ih]
    · have hna : a ∉ ids_hilevel hits locs := by
        intro hmem
        exact hk (List.mem_of_mem_filter hmem)
      simp [List.filter_cons, decide_eq_false hk, decide_eq_false hna, ih]

/-- Containment filtering commutes with pruning unknown ids. -/
theorem filtered_places_prune (hits : List (Nat × Rec)) (locs : List (Nat × List Nat))
    (pls : List (String × List Nat)) :
    filtered_places hits locs (prune_place_locs hits pls)
      = prune_place_locs hits (filtered_places hits locs pls) := by
  unfold filtered_places prune_place_locs
  rw [filter_map_comm]
  congr 1
  apply filter_congr_members
  intro pl _
  simp only []
  rw [any_hilevel_filter_keys]

/-- The visited entries of one place string are unchanged by pruning ids
that are not keys of the current mapping. -/
theorem fp_scored_prune (cur : List (Nat × Rec)) (hits : List (Nat × Rec))
    (pl : String × List Nat) (hkeys : cur.map Prod.fst = hits.map Prod.fst) :
    fp_scored cur (pl.1, pl.2.filter (fun i => decide (i ∈ hits.map Prod.fst)))
      = fp_scored cur pl := by
  unfold fp_scored
  apply filter_congr_members
  intro kv hkv
  have hm : kv.1 ∈ hits.map Prod.fst := by
    rw [← hkeys]
    exact List.mem_map_of_mem Prod.fst hkv
  by_cases hp : kv.1 ∈ pl.2
  · simp [List.mem_filter, hp, hm]
  · simp [List.mem_filter, hp]

/-- The main loop is unchanged by pruning unknown ids from every place
string. -/
theorem fp_fold_prune (nameIdx : Nat → Option String) (hits : List (Nat × Rec))
    (pls : List (String × List Nat)) (acc : List Nat × List (Nat × Rec))
    (hkeys : acc.2.map Prod.fst = hits.map Prod.fst) :
    fp_fold nameIdx acc (prune_place_locs hits pls) = fp_fold nameIdx acc pls := by
  induction pls generalizing acc with
  | nil => rfl
  | cons pl rest ih =>
    have hsc := fp_scored_prune acc.2 hits pl hkeys
    have hupd : fp_upd nameIdx acc.2 (pl.1, pl.2.filter (fun i => decide (i ∈ hits.map Prod.fst)))
        = fp_upd nameIdx acc.2 pl := by
      unfold fp_upd
      rw [hsc]
    have hcur : fp_cur nameIdx acc.2 (pl.1, pl.2.filter (fun i => decide (i ∈ hits.map Prod.fst)))
        = fp_cur nameIdx acc.2 pl := by
      unfold fp_cur
      rw [hupd]
    have hwin : fp_winner nameIdx acc.2 (pl.1, pl.2.filter (fun i => decide (i ∈ hits.map Prod.fst)))
        = fp_winner nameIdx acc.2 pl := by
      unfold fp_winner
      rw [hupd]
    have hstep : fp_step nameIdx acc (pl.1, pl.2.filter (fun i => decide (i ∈ hits.map Prod.fst)))
        = fp_step nameIdx acc pl := by
      unfold fp_step
      rw [hcur, hwin]
    show fp_fold nameIdx (fp_step nameIdx acc _) (prune_place_locs hits rest)
        = fp_fold nameIdx (fp_step nameIdx acc pl) rest
    rw [hstep]
    apply ih
    rw [← hkeys]
    exact fp_cur_keys nameIdx acc.2 pl

/-- Claim C4, amended: the Disambiguator never raises at all.  A hit id
referenced in the placeString-to-ids mapping but absent from the hits
mapping is silently ignored — running _filter_places on the mapping with all
unknown ids pruned yields the very same result and the same final hits
mapping, for every input — and no InternalConsistencyError (or any other
exception type) exists anywhere in the sources. -/
theorem c4_never_raises_amended (nameIdx : Nat → Option String)
    (hits : List (Nat × Rec)) (locs : List (Nat × List Nat))
    (pls : List (String × List Nat)) :
    _filter_places nameIdx hits locs (prune_place_locs hits pls)
      = _filter_places nameIdx hits locs pls := by
  unfold _filter_places
  rw [filtered_places_prune, fp_fold_prune nameIdx hits _ ([], hits) rfl]

/-- A hits mapping with the single key 7. -/
def hitsC4 : List (Nat × Rec) := [(7, { _id := 7, _score := 1 })]

/-- Claim C4, counterexample: the place string p references hit id 99, which
is absent from the hits mapping — the caller contract violation for which the
claim demands an InternalConsistencyError that is never silently recovered.
The embedded _filter_places returns normally: p survives containment
filtering, its score dict stays empty (ids absent from hits are skipped by
the iteration over hits), the IndexError on the empty sorted score list is
caught, and the place string simply yields no result. -/
theorem c4_never_raises_cex :
    _filter_places idxNone hitsC4 [] [("p", [99])] = ([], hitsC4)
    ∧ aget hitsC4 99 = Option.none :=
  ⟨rfl, rfl⟩

/-! ## Claim C10: the belongsto mutation of the hits mapping -/

/-- A key of the hits mapping is visited by the main loop of _filter_places
when some surviving place string lists it. -/
def fp_visited (hits : List (Nat × Rec)) (locs : List (Nat × List Nat))
    (pls : List (String × List Nat)) (k : Nat) : Prop :=
  k ∈ hits.map Prod.fst ∧ ∃ pl ∈ filtered_places hits locs pls, k ∈ pl.2

/-- Claim C10 (confirmed): _filter_places mutates the hits mapping it
receives.  Every record it returns carries a display-name list in belongsto;
every visited entry of the hits mapping ends up with its belongsto
overwritten by a list of resolved ancestor display names (so a second run on
the same mapping sees names, not the ancestor ids from the index); unvisited
entries are untouched; and on the single-hit shortcut path of parse_places
the returned record keeps its raw ancestor ids in belongsto. -/
theorem c10_belongsto_mutation (nameIdx : Nat → Option String)
    (hits : List (Nat × Rec)) (locs : List (Nat × List Nat))
    (pls : List (String × List Nat)) (hnd : (hits.map Prod.fst).Nodup) :
    (∀ r ∈ (_filter_places nameIdx hits locs pls).1, ∃ l, r.belongsto = BT.names l)
    ∧ (∀ k h, aget hits k = some h → fp_visited hits locs pls k →
        ∃ l, aget (_filter_places nameIdx hits locs pls).2 k = some (bt_set h l))
    ∧ (∀ k, ¬ fp_visited hits locs pls k →
        aget (_filter_places nameIdx hits locs pls).2 k = aget hits k)
    ∧ (∀ sp places k v l, (pp_collect sp places).hits = [(k, v)] →
        v.belongsto = BT.ids l →
        parse_places sp nameIdx places = [dehydrate v]
        ∧ aget (dehydrate v) "belongsto" = some (some (Val.nats l))) := by
  refine ⟨?_, ?_, ?_, ?_⟩
  · intro r hr
    rcases List.mem_filterMap.mp hr with ⟨k, hk, hak⟩
    rcases fp_fold_chosen nameIdx (filtered_places hits locs pls) ([], hits) k hk with
      h1 | ⟨hex, hkm⟩
    · exact absurd h1 (List.not_mem_nil k)
    rcases fp_fold_visited nameIdx (filtered_places hits locs pls) ([], hits) k hnd hkm hex
      with ⟨h, l, _, hfin⟩
    have hak2 : aget (fp_fold nameIdx ([], hits) (filtered_places hits locs pls)).2 k
        = some r := hak
    rw [hfin] at hak2
    exact ⟨l, by rw [← Option.some_inj.mp hak2]; rfl⟩
  · intro k h hah hvis
    rcases fp_fold_visited nameIdx (filtered_places hits locs pls) ([], hits) k hnd
      hvis.1 hvis.2 with ⟨h', l, hcur, hfin⟩
    have hh : h' = h := Option.some_inj.mp (hcur.symm.trans hah)
    exact ⟨l, by rw [← hh]; exact hfin⟩
  · intro k hnv
    by_cases hkm : k ∈ hits.map Prod.fst
    · have hex : ¬ ∃ pl ∈ filtered_places hits locs pls, k ∈ pl.2 :=
        fun hex => hnv ⟨hkm, hex⟩
      push_neg at hex
      exact fp_fold_frame nameIdx (filtered_places hits locs pls) ([], hits) k hex
    · have h1 : aget hits k = (Option.none : Option Rec) :=
        aget_eq_none_of_not_mem_keys hkm
      have h2 : aget (_filter_places nameIdx hits locs pls).2 k = Option.none := by
        apply aget_eq_none_of_not_mem_keys
        have hkeys : (_filter_places nameIdx hits locs pls).2.map Prod.fst
            = hits.map Prod.fst :=
          fp_fold_keys nameIdx (filtered_places hits locs pls) ([], hits)
        rw [hkeys]
        exact hkm
      rw [h1, h2]
  · intro sp places k v l hpp hbt
    constructor
    · unfold parse_places
      rcases hpx : pp_collect sp places with ⟨hs, ls, ps⟩
      rw [hpx] at hpp
      simp only at hpp
      subst hpp
      rfl
    · rw [dehydrate_eq]
      simp [recGet, hbt]

/-- A single hit for place string p whose belongsto names ancestor 4. -/
def hitsC10 : List (Nat × Rec) :=
  [(1, { _id := 1, _score := 1, belongsto := BT.ids [4], name := some "A" })]

/-- A name oracle that resolves ancestor 4. -/
def idxC10 : Nat → Option String := fun i => if i = 4 then some "Four" else Option.none

/-- Witness for c10_belongsto_mutation at a concrete input: the visited hit's
entry in the returned hits mapping has its belongsto overwritten. -/
theorem c10_belongsto_mutation_witness :
    ∃ l, aget (_filter_places idxC10 hitsC10 [] [("p", [1])]).2 1
      = some (bt_set { _id := 1, _score := 1, belongsto := BT.ids [4], name := some "A" } l) :=
  (c10_belongsto_mutation idxC10 hitsC10 [] [("p", [1])] (by decide)).2.1 1
    { _id := 1, _score := 1, belongsto := BT.ids [4], name := some "A" } rfl
    ⟨by decide, ⟨("p", [1]), by decide, by decide⟩⟩

end Geopack
